import Mathlib

/-!
# btpd asynchronous HTTP fetch subsystem (`btpd/http.c`)

A shallow embedding of `btpd/http.c`: the request state machine
(`http_get`, `http_cancel`, the drain loop and the completion poll of
`http_td_actions`), the dispatcher task `http_td_cb`, the response
buffering callback `http_write_cb` and the predicate `http_succeeded`.

Conventions of the embedding.

* `size_t` is an unsigned 64-bit integer: values are `Nat`, every arithmetic
  result is reduced modulo `SIZE_MODULUS = 2 ^ 64`.
* Pointers to `struct http` and the `CURL *` easy handle are allocation
  identifiers (`Nat`).  One easy handle is created per request by `http_get`,
  so `curlh` also identifies the request object.
* libcurl and the `td` task executor are external.  What they return
  (whether `realloc` succeeds, which transfers `curl_multi_info_read`
  reports, the response code of `curl_easy_getinfo`) is an input of the
  embedded function.
* The `BTPDQ_*` macros come from `queue.h`, which is not among the sources;
  they are the tail queue macros of BSD `sys/queue.h`.  A queue is the list of
  its requests from head to tail, `BTPDQ_INSERT_TAIL` appends,
  `BTPDQ_REMOVE` takes the request out, `BTPDQ_FOREACH` and
  `BTPDQ_FOREACH_MUTABLE` visit the requests from the head on.
* `abort()` and a failed `assert` are the result `none`.
-/

namespace Btpd

/-! ## Data model -/

/-- The `enum http_state` of `http.c`. -/
inductive http_state where
  | HS_ADD
  | HS_ACTIVE
  | HS_DONE
  | HS_NOADD
  | HS_CANCEL
  deriving DecidableEq

/-- Modelled from the spec: the `enum http_status` declared in `http.h`, which
is not among the sources.  The spec gives the outcome as one of Ok,
TransportFailure, Cancelled; `http.c` names them `HRES_OK`, `HRES_FAIL`,
`HRES_CANCEL`. -/
inductive http_status where
  | HRES_OK
  | HRES_FAIL
  | HRES_CANCEL
  deriving DecidableEq

/-- Modelled from the spec: the `struct http_res` declared in `http.h`, which
is not among the sources.  `http.c` uses the fields `res`, `code` (a `long`),
`content` (a byte buffer, `NULL` when empty) and `length` (a `size_t`). -/
structure http_res where
  res : http_status
  code : Int
  content : List Nat
  length : Nat
  deriving DecidableEq

/-- The `struct http` of `http.c`.  The queue linkage `entry` is the position
of the request in the list that holds it; `cb` is the identifier of the
callback function. -/
structure http where
  state : http_state
  url : List Nat
  curlh : Nat
  res : http_res
  cb : Nat
  cb_arg : Nat
  deriving DecidableEq

open http_state http_status

/-! ## Response buffering: `http_write_cb` -/

/-- The macro `MAX_DOWNLOAD`, `(1 << 18)`. -/
def MAX_DOWNLOAD : Nat := 1 <<< 18

/-- Number of values of a `size_t`. -/
def SIZE_MODULUS : Nat := 2 ^ 64

/-- The function `http_write_cb`.  `ptr` is the inbound data, `realloc_ok`
tells whether `realloc` returns a non-null pointer.  The result is the return
value and the response as the call leaves it. -/
def http_write_cb (ptr : List Nat) (size nmemb : Nat) (realloc_ok : Bool)
    (res : http_res) : Nat × http_res :=
  let nbytes := (size * nmemb) % SIZE_MODULUS
  let nlength := (res.length + nbytes) % SIZE_MODULUS
  if nlength > MAX_DOWNLOAD then
    (0, res)
  else if realloc_ok = false then
    (0, res)
  else
    (nbytes,
      { res with
        content := res.content.take res.length ++ ptr.take nbytes
        length := nlength })

/-- One call of `http_write_cb` as the transport makes it. -/
structure write_call where
  ptr : List Nat
  size : Nat
  nmemb : Nat
  realloc_ok : Bool
  deriving DecidableEq

/-- The response after a sequence of `http_write_cb` calls. -/
def http_write_seq (res : http_res) (calls : List write_call) : http_res :=
  calls.foldl (fun r c => (http_write_cb c.ptr c.size c.nmemb c.realloc_ok r).2) res

/-- The response of a request as `btpd_calloc` leaves it: every field zero.
`zero` is the enumerator of `enum http_status` whose value is 0. -/
def http_res_zero (zero : http_status) : http_res :=
  { res := zero, code := 0, content := [], length := 0 }

/-! ## Success predicate: `http_succeeded` -/

/-- The function `http_succeeded`; the C `int` result is 1 or 0. -/
def http_succeeded (res : http_res) : Int :=
  if res.res = HRES_OK ∧ res.code ≥ 200 ∧ res.code < 300 then 1 else 0

/-! ## Submission and cancellation -/

/-- The request `http_get` allocates and enqueues.  `curlh` is the handle
`curl_easy_init` returned, `url` the formatted URL. -/
def http_get_new (zero : http_status) (curlh : Nat) (cb arg : Nat)
    (url : List Nat) : http :=
  { state := HS_ADD, url := url, curlh := curlh, res := http_res_zero zero,
    cb := cb, cb_arg := arg }

/-- The function `http_cancel`, on the request it is given (the mutex is part
of `http_step`). -/
def http_cancel (h : http) : http :=
  if h.state = HS_ADD then { h with state := HS_NOADD }
  else { h with state := HS_CANCEL }

/-! ## Dispatcher task: `http_td_cb` -/

/-- One invocation `h->cb(h, &h->res, h->cb_arg)` of a user callback. -/
structure cb_call where
  cb : Nat
  h : Nat
  res : http_res
  arg : Nat
  deriving DecidableEq

/-- The function `http_td_cb`: the callback invocations it makes.
`response_code` is what `curl_easy_getinfo` stores for
`CURLINFO_RESPONSE_CODE`.  Logging and the release of the request have no
effect on the result. -/
def http_td_cb (response_code : Int) (h : http) : List cb_call :=
  let res1 : http_res :=
    if h.res.res = HRES_OK then { h.res with code := response_code } else h.res
  if h.state ≠ HS_CANCEL then
    [{ cb := h.cb, h := h.curlh, res := res1, arg := h.cb_arg }]
  else
    []

/-! ## The I/O thread: `http_td_actions` -/

/-- Model of libcurl `curl_multi_add_handle` on the set of handles registered
with the multi handle `m_curlh`: a handle is registered at most once. -/
def curl_multi_add_handle (m : List Nat) (e : Nat) : List Nat :=
  if e ∈ m then m else m ++ [e]

/-- Model of libcurl `curl_multi_remove_handle`. -/
def curl_multi_remove_handle (m : List Nat) (e : Nat) : List Nat :=
  m.filter (fun x => x ≠ e)

/-- What the drain loop does to a request in state `HS_CANCEL` or `HS_NOADD`
once it is moved to `postq`. -/
def http_mark_cancel (h : http) : http :=
  { h with state := HS_CANCEL, res := { h.res with res := HRES_CANCEL } }

/-- The drain loop of `http_td_actions` (`BTPDQ_FOREACH_MUTABLE` over
`m_httpq`), from a queue and the registered handles to the queue left, the
batch `postq` and the registered handles; `none` is `abort()`. -/
def http_td_drain : List http → List Nat → Option (List http × List http × List Nat)
  | [], m => some ([], [], m)
  | h :: t, m =>
    match h.state with
    | HS_ADD =>
      (http_td_drain t (curl_multi_add_handle m h.curlh)).map
        (fun r => ({ h with state := HS_ACTIVE } :: r.1, r.2.1, r.2.2))
    | HS_CANCEL =>
      (http_td_drain t (curl_multi_remove_handle m h.curlh)).map
        (fun r => (r.1, http_mark_cancel h :: r.2.1, r.2.2))
    | HS_NOADD =>
      (http_td_drain t m).map
        (fun r => (r.1, http_mark_cancel h :: r.2.1, r.2.2))
    | HS_DONE => none
    | HS_ACTIVE =>
      (http_td_drain t m).map (fun r => (h :: r.1, r.2.1, r.2.2))

/-- A message of `curl_multi_info_read`: the finished easy handle and
`data.result`. -/
structure CURLMsg where
  easy_handle : Nat
  result : Nat
  deriving DecidableEq

/-- What the completion poll does to the request a message is about. -/
def http_mark_done (c : CURLMsg) (h : http) : http :=
  { h with
    state := HS_DONE
    res :=
      if c.result = 0 then { h.res with res := HRES_OK }
      else { h.res with res := HRES_FAIL, code := (c.result : Int) } }

/-- The completion poll of `http_td_actions` (the `curl_multi_info_read`
loop) over the messages libcurl delivers; `none` is the failed
`assert(http != NULL)`. -/
def http_td_poll : List CURLMsg → List http → List http → List Nat →
    Option (List http × List http × List Nat)
  | [], q, p, m => some (q, p, m)
  | c :: cs, q, p, m =>
    match q.find? (fun h => h.curlh = c.easy_handle) with
    | none => none
    | some h =>
      http_td_poll cs (q.eraseP (fun x => x.curlh = c.easy_handle))
        (p ++ [http_mark_done c h]) (curl_multi_remove_handle m h.curlh)

/-- One pass of the `do` loop of `http_td_actions` under `m_httpq_lock`: the
drain loop, then the completion poll.  The result is the queue left, the batch
`postq` handed to the executor and the registered handles. -/
def http_td_actions (msgs : List CURLMsg) (q : List http) (m : List Nat) :
    Option (List http × List http × List Nat) :=
  (http_td_drain q m).bind (fun r => http_td_poll msgs r.1 r.2.1 r.2.2)

/-! ## The subsystem as a transition system -/

/-- The state shared by the caller threads, the I/O thread and the task
executor.

* `m_httpq`, `m_curlh`: the static variables of `http.c`;
* `postq`: the local batch of `http_td_actions`, between the drain loop and
  the hand-over to the executor;
* `locked`: the I/O thread holds `m_httpq_lock` (from the drain loop to the
  end of the completion poll);
* `tdq`: the tasks handed to the executor with `td_post` whose `http_td_cb`
  has not run yet;
* `calls`: the callback invocations made so far, oldest first;
* `nalloc`: the number of requests allocated so far. -/
structure http_sys where
  m_httpq : List http
  m_curlh : List Nat
  postq : List http
  locked : Bool
  tdq : List http
  calls : List cb_call
  nalloc : Nat
  deriving DecidableEq

/-- The subsystem after `http_init`. -/
def http_init : http_sys :=
  { m_httpq := [], m_curlh := [], postq := [], locked := false, tdq := [],
    calls := [], nalloc := 0 }

/-- The steps of the subsystem.

* `get`: a caller runs `http_get`;
* `cancel h`: a caller runs `http_cancel` on the request `h`;
* `drain`: the I/O thread runs the drain loop of `http_td_actions`;
* `poll msgs`: the I/O thread runs the completion poll on the messages
  libcurl delivers and hands the batch to the executor;
* `run_cb h code`: the executor runs the task `http_td_cb` of request `h`. -/
inductive http_action where
  | get (zero : http_status) (cb arg : Nat) (url : List Nat)
  | cancel (h : Nat)
  | drain
  | poll (msgs : List CURLMsg)
  | run_cb (h : Nat) (response_code : Int)
  deriving DecidableEq

/-- The function `http_get` on the shared state: the new request, whose handle
is the next unused identifier, is inserted at the tail of `m_httpq`. -/
def http_get (zero : http_status) (cb arg : Nat) (url : List Nat) (s : http_sys) :
    http_sys :=
  { s with
    m_httpq := s.m_httpq ++ [http_get_new zero s.nalloc cb arg url]
    nalloc := s.nalloc + 1 }

/-- The requests that are allocated and not yet released. -/
def http_sys.live (s : http_sys) : List http :=
  s.m_httpq ++ s.postq ++ s.tdq

/-- Apply `http_cancel` to the request `h` of a list. -/
def cancel_in (h : Nat) (l : List http) : List http :=
  l.map (fun x => if x.curlh = h then http_cancel x else x)

/-- One step of the subsystem; `none` when the step cannot be taken (the
mutex is held by another thread, the queue is empty so that the I/O thread
waits on `m_httpq_cond`, the request has been released) or when it ends in
`abort()` or a failed `assert`. -/
def http_step (a : http_action) (s : http_sys) : Option http_sys :=
  match a with
  | .get zero cb arg url =>
    if s.locked then none
    else some (http_get zero cb arg url s)
  | .cancel h =>
    if s.locked then none
    else if s.live.any (fun x => x.curlh = h) then
      some { s with
        m_httpq := cancel_in h s.m_httpq
        postq := cancel_in h s.postq
        tdq := cancel_in h s.tdq }
    else none
  | .drain =>
    if s.locked ∨ s.m_httpq = [] then none
    else
      (http_td_drain s.m_httpq s.m_curlh).map
        (fun r => { s with m_httpq := r.1, postq := r.2.1, m_curlh := r.2.2, locked := true })
  | .poll msgs =>
    if s.locked then
      (http_td_poll msgs s.m_httpq s.postq s.m_curlh).map
        (fun r =>
          { s with
            m_httpq := r.1, postq := [], m_curlh := r.2.2, locked := false
            tdq := s.tdq ++ r.2.1 })
    else none
  | .run_cb h code =>
    match s.tdq.find? (fun x => x.curlh = h) with
    | none => none
    | some x =>
      some { s with
        tdq := s.tdq.eraseP (fun y => y.curlh = h)
        calls := s.calls ++ http_td_cb code x }

/-- A run: the steps of a list taken in order. -/
def http_run : List http_action → http_sys → Option http_sys
  | [], s => some s
  | a :: as, s => (http_step a s).bind (http_run as)

/-! ## Auxiliary definitions of the proofs -/

/-- The registered handles after the drain loop: the third component of
`http_td_drain`. -/
def drain_handles : List http → List Nat → List Nat
  | [], m => m
  | h :: t, m =>
    match h.state with
    | HS_ADD => drain_handles t (curl_multi_add_handle m h.curlh)
    | HS_CANCEL => drain_handles t (curl_multi_remove_handle m h.curlh)
    | _ => drain_handles t m

/-- The requests the drain loop leaves in the queue. -/
def drain_keep (q : List http) : List http :=
  (q.filter (fun h => h.state = HS_ADD ∨ h.state = HS_ACTIVE)).map
    (fun h => { h with state := HS_ACTIVE })

/-- The requests the drain loop moves to the batch. -/
def drain_post (q : List http) : List http :=
  (q.filter (fun h => h.state = HS_NOADD ∨ h.state = HS_CANCEL)).map http_mark_cancel

/-- The identifiers of the requests of a list. -/
def ids (l : List http) : List Nat := l.map (fun h => h.curlh)

/-- The invariant of the subsystem. -/
structure Inv (s : http_sys) : Prop where
  postq_nil : s.locked = false → s.postq = []
  q_state : ∀ x ∈ s.m_httpq, x.state ≠ HS_DONE ∧ (s.locked = true → x.state = HS_ACTIVE)
  post_state : ∀ x, x ∈ s.postq ∨ x ∈ s.tdq →
    (x.state = HS_DONE ∨ x.state = HS_CANCEL) ∧ (x.res.res = HRES_CANCEL → x.state = HS_CANCEL)
  ids_lt : ∀ i ∈ ids s.live, i < s.nalloc
  ids_nodup : (ids s.live).Nodup
  calls_lt : ∀ c ∈ s.calls, c.h < s.nalloc
  calls_dead : ∀ c ∈ s.calls, c.h ∉ ids s.live
  calls_nodup : (s.calls.map (fun c => c.h)).Nodup

/-- What holds of a request from the moment `http_cancel` was applied to it. -/
structure Cancelled (i : Nat) (s : http_sys) : Prop where
  inv : Inv s
  state : ∀ x ∈ s.live, x.curlh = i → x.state = HS_NOADD ∨ x.state = HS_CANCEL
  lt : i < s.nalloc
  calls : ∀ c ∈ s.calls, c.h ≠ i

/-! ## The success predicate -/

/-- C1: `http_succeeded` is nonzero exactly when the outcome is `HRES_OK` and
`200 <= code < 300`; (Ok, 200) gives 1, (Ok, 404) gives 0, and an outcome
`HRES_FAIL` gives 0 whatever the code field holds. -/
theorem http_succeeded_iff :
    (∀ r : http_res,
      http_succeeded r ≠ 0 ↔ (r.res = HRES_OK ∧ 200 ≤ r.code ∧ r.code < 300)) ∧
    (∀ r : http_res, http_succeeded r = 1 ∨ http_succeeded r = 0) ∧
    (∀ (c : List Nat) (l : Nat),
      http_succeeded { res := HRES_OK, code := 200, content := c, length := l } = 1) ∧
    (∀ (c : List Nat) (l : Nat),
      http_succeeded { res := HRES_OK, code := 404, content := c, length := l } = 0) ∧
    (∀ (code : Int) (c : List Nat) (l : Nat),
      http_succeeded { res := HRES_FAIL, code := code, content := c, length := l } = 0) := by
  refine ⟨?_, ?_, ?_, ?_, ?_⟩
  · intro r
    unfold http_succeeded
    by_cases hc : r.res = HRES_OK ∧ r.code ≥ 200 ∧ r.code < 300
    · rw [if_pos hc]
      simpa using hc
    · rw [if_neg hc]
      simpa using hc
  · intro r
    unfold http_succeeded
    split <;> simp
  · intro c l
    simp [http_succeeded]
  · intro c l
    simp [http_succeeded]
  · intro code c l
    simp [http_succeeded]

/-! ## Cancellation -/

/-- C2: `http_cancel` sets the state to `HS_NOADD` if it was `HS_ADD` and to
`HS_CANCEL` for every other prior state, and changes no other field; a request
cancelled right after `http_get`, before any drain pass, is `HS_NOADD`. -/
theorem http_cancel_state (h : http) :
    (h.state = HS_ADD → (http_cancel h).state = HS_NOADD) ∧
    (h.state ≠ HS_ADD → (http_cancel h).state = HS_CANCEL) ∧
    http_cancel h = { h with state := (http_cancel h).state } ∧
    (∀ (zero : http_status) (cb arg : Nat) (url : List Nat),
      (http_run [.get zero cb arg url, .cancel 0] http_init).map
          (fun s => (s.live.map (fun x => (x.curlh, x.state)), s.calls))
        = some ([(0, HS_NOADD)], [])) := by
  refine ⟨?_, ?_, ?_, ?_⟩
  · intro hs
    simp [http_cancel, hs]
  · intro hs
    simp [http_cancel, hs]
  · unfold http_cancel
    split <;> rfl
  · intro zero cb arg url
    rfl

/-- Witness of C2 on a request in state `HS_ACTIVE`. -/
theorem http_cancel_state_witness :
    (http_cancel
      { state := HS_ACTIVE, url := [], curlh := 3, res := http_res_zero HRES_OK,
        cb := 1, cb_arg := 2 }).state = HS_CANCEL :=
  (http_cancel_state
    { state := HS_ACTIVE, url := [], curlh := 3, res := http_res_zero HRES_OK,
      cb := 1, cb_arg := 2 }).2.1 (by decide)

/-- C3, as stated, fails: `http_cancel` changes the state of a request that is
`HS_NOADD` (to `HS_CANCEL`) and of one that is `HS_DONE` (to `HS_CANCEL`), and
cancelling a fresh request twice gives `HS_CANCEL` where once gives
`HS_NOADD`. -/
theorem http_cancel_terminal_changes :
    (http_cancel (http_cancel (http_get_new HRES_OK 0 1 2 []))).state = HS_CANCEL ∧
    (http_cancel (http_get_new HRES_OK 0 1 2 [])).state = HS_NOADD ∧
    (http_cancel
      { state := HS_DONE, url := [], curlh := 0, res := http_res_zero HRES_OK,
        cb := 1, cb_arg := 2 }).state = HS_CANCEL := by
  decide

/-- C3, amended: `http_cancel` leaves a request unchanged exactly when its
state is `HS_CANCEL`; on `HS_DONE` and `HS_NOADD` it sets `HS_CANCEL`; two
cancels always end in `HS_CANCEL`, which equals one cancel for every prior
state but `HS_ADD`, and every further cancel changes nothing. -/
theorem http_cancel_idem (h : http) :
    (http_cancel h = h ↔ h.state = HS_CANCEL) ∧
    (h.state = HS_DONE ∨ h.state = HS_NOADD → (http_cancel h).state = HS_CANCEL) ∧
    (http_cancel (http_cancel h)).state = HS_CANCEL ∧
    (h.state ≠ HS_ADD → http_cancel (http_cancel h) = http_cancel h) ∧
    http_cancel (http_cancel (http_cancel h)) = http_cancel (http_cancel h) := by
  obtain ⟨st, url, curlh, res, cb, arg⟩ := h
  cases st <;> simp [http_cancel]

/-- Witness of the amended C3 on a request in state `HS_NOADD`. -/
theorem http_cancel_idem_witness :
    (http_cancel
      { state := HS_NOADD, url := [], curlh := 0, res := http_res_zero HRES_OK,
        cb := 1, cb_arg := 2 }).state = HS_CANCEL :=
  (http_cancel_idem
    { state := HS_NOADD, url := [], curlh := 0, res := http_res_zero HRES_OK,
      cb := 1, cb_arg := 2 }).2.1 (Or.inr rfl)

/-! ## Response buffering -/

/-- The length after one call is the length before or a length the cap check
let through. -/
theorem http_write_cb_length (ptr : List Nat) (size nmemb : Nat) (ok : Bool)
    (res : http_res) :
    (http_write_cb ptr size nmemb ok res).2.length = res.length ∨
    (http_write_cb ptr size nmemb ok res).2.length ≤ MAX_DOWNLOAD := by
  unfold http_write_cb
  simp only
  split
  · exact Or.inl rfl
  · split
    · exact Or.inl rfl
    · right
      simp only
      omega

/-- C6: a call of `http_write_cb` on a response of length at most 262144, with
any `size` and `nmemb`, leaves a length of at most 262144; so does every
sequence of calls on the empty response. -/
theorem http_write_cb_cap :
    MAX_DOWNLOAD = 262144 ∧
    (∀ (ptr : List Nat) (size nmemb : Nat) (ok : Bool) (res : http_res),
      res.length ≤ 262144 →
      (http_write_cb ptr size nmemb ok res).2.length ≤ 262144) ∧
    (∀ (zero : http_status) (calls : List write_call),
      (http_write_seq (http_res_zero zero) calls).length ≤ 262144) := by
  have hmax : MAX_DOWNLOAD = 262144 := by decide
  have one : ∀ (ptr : List Nat) (size nmemb : Nat) (ok : Bool) (res : http_res),
      res.length ≤ 262144 →
      (http_write_cb ptr size nmemb ok res).2.length ≤ 262144 := by
    intro ptr size nmemb ok res hle
    rcases http_write_cb_length ptr size nmemb ok res with h | h
    · rw [h]; exact hle
    · rw [hmax] at h; exact h
  have seq : ∀ (calls : List write_call) (res : http_res),
      res.length ≤ 262144 → (http_write_seq res calls).length ≤ 262144 := by
    intro calls
    induction calls with
    | nil => intro res hle; simpa [http_write_seq] using hle
    | cons c cs ih =>
      intro res hle
      have := ih (http_write_cb c.ptr c.size c.nmemb c.realloc_ok res).2
        (one _ _ _ _ _ hle)
      simpa [http_write_seq] using this
  exact ⟨hmax, one, fun zero calls => seq calls _ (by simp [http_res_zero])⟩

/-- Witness of C6: a full buffer and a chunk whose byte count wraps around. -/
theorem http_write_cb_cap_witness :
    (http_write_cb [1] (2 ^ 63) 2 true
      { res := HRES_OK, code := 0, content := List.replicate 262144 0,
        length := 262144 }).2.length ≤ 262144 :=
  http_write_cb_cap.2.1 [1] (2 ^ 63) 2 true
    { res := HRES_OK, code := 0, content := List.replicate 262144 0,
      length := 262144 } (by simp)

/-- When neither `size * nmemb` nor the new length wraps around, an append
that would exceed the cap returns 0 and leaves the response as it was. -/
theorem http_write_cb_reject_of_no_wrap (ptr : List Nat) (size nmemb : Nat)
    (ok : Bool) (res : http_res)
    (hwrap : res.length + size * nmemb < SIZE_MODULUS)
    (hover : res.length + size * nmemb > MAX_DOWNLOAD) :
    http_write_cb ptr size nmemb ok res = (0, res) := by
  have h1 : size * nmemb % SIZE_MODULUS = size * nmemb :=
    Nat.mod_eq_of_lt (by omega)
  have h2 : (res.length + size * nmemb) % SIZE_MODULUS = res.length + size * nmemb :=
    Nat.mod_eq_of_lt hwrap
  unfold http_write_cb
  simp only [h1, h2, if_pos hover]

theorem http_td_drain_eq (q : List http) (m : List Nat)
    (hst : ∀ h ∈ q, h.state ≠ HS_DONE) :
    http_td_drain q m = some (drain_keep q, drain_post q, drain_handles q m) := by
  induction q generalizing m with
  | nil => rfl
  | cons h t ih =>
    have ht : ∀ x ∈ t, x.state ≠ HS_DONE := fun x hx => hst x (List.mem_cons_of_mem _ hx)
    have hh : h.state ≠ HS_DONE := hst h (List.mem_cons_self _ _)
    unfold http_td_drain
    cases hs : h.state with
    | HS_DONE => exact absurd hs hh
    | HS_ADD => simp [ih _ ht, drain_keep, drain_post, drain_handles, hs]
    | HS_ACTIVE =>
      have he : ({ h with state := HS_ACTIVE } : http) = h := by
        obtain ⟨st, url, curlh, res, cb, arg⟩ := h
        simp only at hs
        rw [hs]
      simp [ih _ ht, drain_keep, drain_post, drain_handles, hs, he]
    | HS_NOADD => simp [ih _ ht, drain_keep, drain_post, drain_handles, hs]
    | HS_CANCEL => simp [ih _ ht, drain_keep, drain_post, drain_handles, hs]

theorem http_td_drain_none (q : List http) (m : List Nat)
    (hd : ∃ h ∈ q, h.state = HS_DONE) : http_td_drain q m = none := by
  induction q generalizing m with
  | nil => simp at hd
  | cons h t ih =>
    unfold http_td_drain
    cases hs : h.state with
    | HS_DONE => rfl
    | HS_ADD =>
      have : ∃ x ∈ t, x.state = HS_DONE := by
        obtain ⟨x, hx, hxs⟩ := hd
        rcases List.mem_cons.1 hx with rfl | hx
        · rw [hs] at hxs; cases hxs
        · exact ⟨x, hx, hxs⟩
      simp [ih _ this]
    | HS_ACTIVE =>
      have : ∃ x ∈ t, x.state = HS_DONE := by
        obtain ⟨x, hx, hxs⟩ := hd
        rcases List.mem_cons.1 hx with rfl | hx
        · rw [hs] at hxs; cases hxs
        · exact ⟨x, hx, hxs⟩
      simp [ih _ this]
    | HS_NOADD =>
      have : ∃ x ∈ t, x.state = HS_DONE := by
        obtain ⟨x, hx, hxs⟩ := hd
        rcases List.mem_cons.1 hx with rfl | hx
        · rw [hs] at hxs; cases hxs
        · exact ⟨x, hx, hxs⟩
      simp [ih _ this]
    | HS_CANCEL =>
      have : ∃ x ∈ t, x.state = HS_DONE := by
        obtain ⟨x, hx, hxs⟩ := hd
        rcases List.mem_cons.1 hx with rfl | hx
        · rw [hs] at hxs; cases hxs
        · exact ⟨x, hx, hxs⟩
      simp [ih _ this]

/-- The drain loop returns exactly on the queues without a `HS_DONE` request. -/
theorem http_td_drain_some_iff (q : List http) (m : List Nat)
    (r : List http × List http × List Nat) :
    http_td_drain q m = some r ↔
      (∀ h ∈ q, h.state ≠ HS_DONE) ∧ r = (drain_keep q, drain_post q, drain_handles q m) := by
  constructor
  · intro h
    by_cases hd : ∃ x ∈ q, x.state = HS_DONE
    · rw [http_td_drain_none q m hd] at h; cases h
    · have hst : ∀ x ∈ q, x.state ≠ HS_DONE := fun x hx hxs => hd ⟨x, hx, hxs⟩
      rw [http_td_drain_eq q m hst] at h
      exact ⟨hst, (Option.some.inj h).symm⟩
  · rintro ⟨hst, rfl⟩
    exact http_td_drain_eq q m hst

theorem mem_curl_multi_add_handle (m : List Nat) (e x : Nat) :
    x ∈ curl_multi_add_handle m e ↔ x ∈ m ∨ x = e := by
  unfold curl_multi_add_handle
  split
  · constructor
    · exact Or.inl
    · rintro (h | rfl)
      · exact h
      · assumption
  · simp

theorem mem_curl_multi_remove_handle (m : List Nat) (e x : Nat) :
    x ∈ curl_multi_remove_handle m e ↔ x ∈ m ∧ x ≠ e := by
  simp [curl_multi_remove_handle]

/-- The handles registered after the drain loop, when the requests of the
queue are distinct objects. -/
theorem mem_drain_handles (q : List http) (m : List Nat)
    (hnd : (q.map (fun h => h.curlh)).Nodup) (e : Nat) :
    e ∈ drain_handles q m ↔
      (∃ h ∈ q, h.state = HS_ADD ∧ h.curlh = e) ∨
      (e ∈ m ∧ ¬ ∃ h ∈ q, h.state = HS_CANCEL ∧ h.curlh = e) := by
  induction q generalizing m with
  | nil => simp [drain_handles]
  | cons h t ih =>
    rw [List.map_cons, List.nodup_cons] at hnd
    obtain ⟨hnot, hnd⟩ := hnd
    have hfresh : ∀ x ∈ t, x.curlh ≠ h.curlh := by
      intro x hx heq
      exact hnot (List.mem_map.2 ⟨x, hx, heq⟩)
    unfold drain_handles
    cases hs : h.state with
    | HS_ADD =>
      simp only [ih _ hnd, mem_curl_multi_add_handle, List.mem_cons, exists_eq_or_imp, hs,
        reduceCtorEq, true_and, false_and, false_or]
      constructor
      · rintro (h1 | ⟨h1 | h1, h2⟩)
        · exact Or.inl (Or.inr h1)
        · exact Or.inr ⟨h1, h2⟩
        · exact Or.inl (Or.inl h1.symm)
      · rintro ((h1 | h1) | ⟨h1, h2⟩)
        · refine Or.inr ⟨Or.inr h1.symm, ?_⟩
          rintro ⟨x, hx, -, hxe⟩
          exact hfresh x hx (hxe.trans h1.symm)
        · exact Or.inl h1
        · exact Or.inr ⟨Or.inl h1, h2⟩
    | HS_CANCEL =>
      simp only [ih _ hnd, mem_curl_multi_remove_handle, List.mem_cons, exists_eq_or_imp, hs,
        reduceCtorEq, true_and, false_and, false_or, not_or]
      constructor
      · rintro (h1 | ⟨⟨h1, h2⟩, h3⟩)
        · exact Or.inl h1
        · exact Or.inr ⟨h1, fun h => h2 h.symm, h3⟩
      · rintro (h1 | ⟨h1, h2, h3⟩)
        · exact Or.inl h1
        · exact Or.inr ⟨⟨h1, fun h => h2 h.symm⟩, h3⟩
    | HS_ACTIVE =>
      simp only [ih _ hnd, List.mem_cons, exists_eq_or_imp, hs, reduceCtorEq, false_and,
        false_or]
    | HS_NOADD =>
      simp only [ih _ hnd, List.mem_cons, exists_eq_or_imp, hs, reduceCtorEq, false_and,
        false_or]
    | HS_DONE =>
      simp only [ih _ hnd, List.mem_cons, exists_eq_or_imp, hs, reduceCtorEq, false_and,
        false_or]

theorem drain_keep_curlh (q : List http) :
    (drain_keep q).map (fun h => h.curlh)
      = (q.filter (fun h => h.state = HS_ADD ∨ h.state = HS_ACTIVE)).map (fun h => h.curlh) := by
  simp [drain_keep, List.map_map, Function.comp_def]

theorem drain_post_curlh (q : List http) :
    (drain_post q).map (fun h => h.curlh)
      = (q.filter (fun h => h.state = HS_NOADD ∨ h.state = HS_CANCEL)).map (fun h => h.curlh) := by
  simp [drain_post, List.map_map, Function.comp_def, http_mark_cancel]

/-- The drain loop neither loses nor duplicates a request. -/
theorem drain_perm (q : List http) (hst : ∀ h ∈ q, h.state ≠ HS_DONE) :
    ((drain_keep q ++ drain_post q).map (fun h => h.curlh)).Perm (q.map (fun h => h.curlh)) := by
  rw [List.map_append, drain_keep_curlh, drain_post_curlh]
  induction q with
  | nil => simp
  | cons h t ih =>
    have ht : ∀ x ∈ t, x.state ≠ HS_DONE := fun x hx => hst x (List.mem_cons_of_mem _ hx)
    have hh : h.state ≠ HS_DONE := hst h (List.mem_cons_self _ _)
    have ih := ih ht
    cases hs : h.state with
    | HS_DONE => exact absurd hs hh
    | HS_ADD => simpa [List.filter_cons, hs] using ih
    | HS_ACTIVE => simpa [List.filter_cons, hs] using ih
    | HS_NOADD =>
      simp only [List.filter_cons, hs, List.map_cons]
      simp only [reduceCtorEq, or_self, decide_False, Bool.false_eq_true, if_false,
        true_or, decide_True, if_true, List.map_cons]
      exact List.perm_middle.trans (List.Perm.cons _ ih)
    | HS_CANCEL =>
      simp only [List.filter_cons, hs, List.map_cons]
      simp only [reduceCtorEq, or_self, decide_False, Bool.false_eq_true, if_false,
        or_true, decide_True, if_true, List.map_cons]
      exact List.perm_middle.trans (List.Perm.cons _ ih)

/-! ## The invariant of the subsystem -/

theorem ids_append (a b : List http) : ids (a ++ b) = ids a ++ ids b := by
  simp [ids]

theorem mem_ids {l : List http} {i : Nat} : i ∈ ids l ↔ ∃ x ∈ l, x.curlh = i := by
  simp [ids]

theorem mem_ids_of_mem {l : List http} {x : http} (h : x ∈ l) : x.curlh ∈ ids l :=
  mem_ids.2 ⟨x, h, rfl⟩

theorem ids_live (s : http_sys) : ids s.live = ids s.m_httpq ++ ids s.postq ++ ids s.tdq := by
  simp [http_sys.live, ids_append]

theorem mem_live {s : http_sys} {x : http} :
    x ∈ s.live ↔ x ∈ s.m_httpq ∨ x ∈ s.postq ∨ x ∈ s.tdq := by
  simp [http_sys.live, or_assoc]

theorem eq_of_curlh_eq {l : List http} (hnd : (ids l).Nodup) {x y : http}
    (hx : x ∈ l) (hy : y ∈ l) (h : x.curlh = y.curlh) : x = y :=
  List.inj_on_of_nodup_map hnd hx hy h

theorem http_cancel_curlh (x : http) : (http_cancel x).curlh = x.curlh := by
  unfold http_cancel; split <;> rfl

theorem ids_cancel_in (h : Nat) (l : List http) : ids (cancel_in h l) = ids l := by
  induction l with
  | nil => rfl
  | cons x t ih =>
    simp only [ids, cancel_in, List.map_cons] at ih ⊢
    rw [ih]
    split
    · rw [http_cancel_curlh]
    · rfl

theorem mem_cancel_in {h : Nat} {l : List http} {y : http} :
    y ∈ cancel_in h l ↔ ∃ x ∈ l, y = if x.curlh = h then http_cancel x else x := by
  simp only [cancel_in, List.mem_map]
  constructor
  · rintro ⟨x, hx, rfl⟩; exact ⟨x, hx, rfl⟩
  · rintro ⟨x, hx, rfl⟩; exact ⟨x, hx, rfl⟩

theorem find_eraseP_perm (p : http → Bool) (l : List http) (a : http)
    (h : l.find? p = some a) :
    p a = true ∧ a ∈ l ∧ (a :: l.eraseP p).Perm l := by
  induction l with
  | nil => simp at h
  | cons x t ih =>
    by_cases hp : p x = true
    · simp only [List.find?_cons, hp] at h
      cases h
      simp [List.eraseP_cons, hp]
    · simp only [List.find?_cons, hp] at h
      obtain ⟨h1, h2, h3⟩ := ih h
      refine ⟨h1, List.mem_cons_of_mem _ h2, ?_⟩
      simp only [List.eraseP_cons, hp, cond_false, Bool.false_eq_true, if_false]
      exact (List.Perm.swap x a _).trans (List.Perm.cons x h3)

/-- What the completion poll returns: the queue loses the requests the
messages are about, and these are appended to the batch in state `HS_DONE`. -/
theorem http_td_poll_spec (msgs : List CURLMsg) (q p : List http) (m : List Nat)
    (r : List http × List http × List Nat)
    (h : http_td_poll msgs q p m = some r) :
    ∃ d : List http, r.2.1 = p ++ d ∧ (ids (r.1 ++ d)).Perm (ids q) ∧
      r.1.Sublist q ∧ ∀ y ∈ d, ∃ x ∈ q, ∃ c ∈ msgs, y = http_mark_done c x := by
  induction msgs generalizing q p m with
  | nil =>
    simp only [http_td_poll] at h
    cases h
    exact ⟨[], by simp, by simp, List.Sublist.refl _, by simp⟩
  | cons c cs ih =>
    unfold http_td_poll at h
    cases hf : q.find? (fun h => h.curlh = c.easy_handle) with
    | none => rw [hf] at h; cases h
    | some x =>
      rw [hf] at h
      simp only at h
      obtain ⟨d, hd1, hd2, hd3, hd4⟩ := ih _ _ _ h
      obtain ⟨-, hx, hperm⟩ := find_eraseP_perm _ q x hf
      refine ⟨http_mark_done c x :: d, ?_, ?_, ?_, ?_⟩
      · rw [hd1]; simp
      · have h1 : (ids (r.1 ++ http_mark_done c x :: d)).Perm
            (x.curlh :: ids (r.1 ++ d)) := by
          simp only [ids, List.map_append, List.map_cons]
          exact List.perm_middle
        have h2 : (x.curlh :: ids (List.eraseP (fun h => decide (h.curlh = c.easy_handle)) q)).Perm
            (ids q) := by
          have := List.Perm.map (fun h : http => h.curlh) hperm
          simpa [ids] using this
        exact h1.trans ((List.Perm.cons _ hd2).trans h2)
      · exact hd3.trans (List.eraseP_sublist _)
      · intro y hy
        rcases List.mem_cons.1 hy with rfl | hy
        · exact ⟨x, hx, c, List.mem_cons_self _ _, rfl⟩
        · obtain ⟨x', hx', c', hc', rfl⟩ := hd4 y hy
          exact ⟨x', (List.eraseP_sublist _).subset hx', c', List.mem_cons_of_mem _ hc', rfl⟩

theorem Inv_init : Inv http_init := by
  constructor <;> simp [http_init, http_sys.live, ids]

/-! ### The steps, one by one -/

theorem step_get_inv {zero : http_status} {cb arg : Nat} {url : List Nat} {s s' : http_sys}
    (h : http_step (.get zero cb arg url) s = some s') :
    s.locked = false ∧
    s' = { s with
      m_httpq := s.m_httpq ++ [http_get_new zero s.nalloc cb arg url]
      nalloc := s.nalloc + 1 } := by
  simp only [http_step, http_get] at h
  split at h
  · cases h
  · rename_i hl
    exact ⟨by simpa using hl, (Option.some.inj h).symm⟩

theorem step_cancel_inv {i : Nat} {s s' : http_sys}
    (h : http_step (.cancel i) s = some s') :
    s.locked = false ∧ (∃ x ∈ s.live, x.curlh = i) ∧
    s' = { s with
      m_httpq := cancel_in i s.m_httpq
      postq := cancel_in i s.postq
      tdq := cancel_in i s.tdq } := by
  simp only [http_step] at h
  split at h
  · cases h
  · rename_i hl
    split at h
    · rename_i hx
      refine ⟨by simpa using hl, ?_, (Option.some.inj h).symm⟩
      simpa using hx
    · cases h

theorem step_drain_inv {s s' : http_sys}
    (h : http_step .drain s = some s') :
    s.locked = false ∧ s.m_httpq ≠ [] ∧ (∀ x ∈ s.m_httpq, x.state ≠ HS_DONE) ∧
    s' = { s with
      m_httpq := drain_keep s.m_httpq
      postq := drain_post s.m_httpq
      m_curlh := drain_handles s.m_httpq s.m_curlh
      locked := true } := by
  simp only [http_step] at h
  split at h
  · cases h
  · rename_i hl
    simp only [not_or] at hl
    cases hd : http_td_drain s.m_httpq s.m_curlh with
    | none => rw [hd] at h; cases h
    | some r =>
      rw [hd] at h
      obtain ⟨hst, rfl⟩ := (http_td_drain_some_iff _ _ _).1 hd
      exact ⟨by simpa using hl.1, hl.2, hst, (Option.some.inj h).symm⟩

theorem step_poll_inv {msgs : List CURLMsg} {s s' : http_sys}
    (h : http_step (.poll msgs) s = some s') :
    s.locked = true ∧
    ∃ r, http_td_poll msgs s.m_httpq s.postq s.m_curlh = some r ∧
      s' = { s with
        m_httpq := r.1, postq := [], m_curlh := r.2.2, locked := false
        tdq := s.tdq ++ r.2.1 } := by
  simp only [http_step] at h
  split at h
  · rename_i hl
    cases hd : http_td_poll msgs s.m_httpq s.postq s.m_curlh with
    | none => rw [hd] at h; cases h
    | some r =>
      rw [hd] at h
      exact ⟨hl, r, rfl, (Option.some.inj h).symm⟩
  · cases h

theorem step_run_cb_inv {i : Nat} {code : Int} {s s' : http_sys}
    (h : http_step (.run_cb i code) s = some s') :
    ∃ x, s.tdq.find? (fun x => x.curlh = i) = some x ∧
      s' = { s with
        tdq := s.tdq.eraseP (fun y => y.curlh = i)
        calls := s.calls ++ http_td_cb code x } := by
  simp only [http_step] at h
  split at h
  · cases h
  · rename_i x hx
    exact ⟨x, hx, (Option.some.inj h).symm⟩

theorem mem_drain_keep {q : List http} {y : http} :
    y ∈ drain_keep q ↔
      ∃ x ∈ q, (x.state = HS_ADD ∨ x.state = HS_ACTIVE) ∧ y = { x with state := HS_ACTIVE } := by
  simp only [drain_keep, List.mem_map, List.mem_filter, decide_eq_true_eq]
  constructor
  · rintro ⟨x, ⟨hx, hs⟩, rfl⟩; exact ⟨x, hx, hs, rfl⟩
  · rintro ⟨x, hx, hs, rfl⟩; exact ⟨x, ⟨hx, hs⟩, rfl⟩

theorem mem_drain_post {q : List http} {y : http} :
    y ∈ drain_post q ↔
      ∃ x ∈ q, (x.state = HS_NOADD ∨ x.state = HS_CANCEL) ∧ y = http_mark_cancel x := by
  simp only [drain_post, List.mem_map, List.mem_filter, decide_eq_true_eq]
  constructor
  · rintro ⟨x, ⟨hx, hs⟩, rfl⟩; exact ⟨x, hx, hs, rfl⟩
  · rintro ⟨x, hx, hs, rfl⟩; exact ⟨x, ⟨hx, hs⟩, rfl⟩

theorem perm_nodup_of {a b : List Nat} (h : a.Perm b) (hb : b.Nodup) : a.Nodup :=
  h.nodup_iff.2 hb

/-- The identifiers of the live requests, the allocation count and the
callback invocations after a step: `http_get` adds a new identifier,
`http_td_cb` releases one and is the only step that invokes callbacks. -/
theorem step_ids_calls {a : http_action} {s s' : http_sys} (hi : Inv s)
    (h : http_step a s = some s') :
    ((ids s'.live).Perm (ids s.live) ∧ s'.nalloc = s.nalloc ∧ s'.calls = s.calls) ∨
    ((ids s'.live).Perm (s.nalloc :: ids s.live) ∧ s'.nalloc = s.nalloc + 1 ∧
      s'.calls = s.calls) ∨
    (∃ x code, x ∈ s.tdq ∧ a = .run_cb x.curlh code ∧
      (x.curlh :: ids s'.live).Perm (ids s.live) ∧
      s'.nalloc = s.nalloc ∧ s'.calls = s.calls ++ http_td_cb code x) := by
  cases a with
  | get zero cb arg url =>
    obtain ⟨-, rfl⟩ := step_get_inv h
    right; left
    refine ⟨?_, rfl, rfl⟩
    simp only [ids_live, ids_append]
    simp only [ids, List.map_cons, List.map_nil, http_get_new]
    rw [List.perm_iff_count]
    intro a
    simp only [List.count_append, List.count_cons, List.count_nil]
    omega
  | cancel i =>
    obtain ⟨-, -, rfl⟩ := step_cancel_inv h
    left
    refine ⟨?_, rfl, rfl⟩
    simp only [ids_live, ids_cancel_in]
    exact List.Perm.refl _
  | drain =>
    obtain ⟨hl, -, hst, rfl⟩ := step_drain_inv h
    left
    refine ⟨?_, rfl, rfl⟩
    have hp := drain_perm s.m_httpq hst
    have hnil := hi.postq_nil hl
    simp only [ids_live, hnil]
    rw [List.perm_iff_count] at hp ⊢
    intro a
    have := hp a
    simp only [List.map_append, List.count_append, ids, List.map_nil, List.count_nil] at this ⊢
    omega
  | poll msgs =>
    obtain ⟨-, r, hr, rfl⟩ := step_poll_inv h
    obtain ⟨d, hd1, hd2, -, -⟩ := http_td_poll_spec _ _ _ _ _ hr
    left
    refine ⟨?_, rfl, rfl⟩
    simp only [ids_live, hd1, ids_append] at hd2 ⊢
    rw [List.perm_iff_count] at hd2 ⊢
    intro a
    have := hd2 a
    simp only [List.count_append, ids, List.map_nil, List.count_nil] at this ⊢
    omega
  | run_cb i code =>
    obtain ⟨x, hx, rfl⟩ := step_run_cb_inv h
    obtain ⟨hpx, hxm, hperm⟩ := find_eraseP_perm _ _ _ hx
    right; right
    have hxi : x.curlh = i := by simpa using hpx
    subst hxi
    refine ⟨x, code, hxm, rfl, ?_, rfl, rfl⟩
    have hp := List.Perm.map (fun h : http => h.curlh) hperm
    simp only [List.map_cons] at hp
    simp only [ids_live]
    rw [List.perm_iff_count] at hp ⊢
    intro a
    have := hp a
    simp only [ids, List.count_append, List.count_cons] at this ⊢
    omega

theorem http_td_cb_h {code : Int} {x : http} {c : cb_call} (h : c ∈ http_td_cb code x) :
    c.h = x.curlh ∧ x.state ≠ HS_CANCEL := by
  unfold http_td_cb at h
  simp only at h
  split at h
  · rename_i hs
    rw [List.mem_singleton] at h
    subst h
    exact ⟨rfl, hs⟩
  · simp at h

/-- Every step keeps the invariant. -/
theorem Inv_step {a : http_action} {s s' : http_sys} (hi : Inv s)
    (h : http_step a s = some s') : Inv s' := by
  have hids := step_ids_calls hi h
  have hlt : (∀ i ∈ ids s'.live, i < s'.nalloc) ∧ (ids s'.live).Nodup ∧
      (∀ c ∈ s'.calls, c.h < s'.nalloc) ∧ (∀ c ∈ s'.calls, c.h ∉ ids s'.live) ∧
      (s'.calls.map (fun c => c.h)).Nodup := by
    rcases hids with ⟨hp, hn, hc⟩ | ⟨hp, hn, hc⟩ | ⟨x, code, hx, -, hp, hn, hc⟩
    · rw [hn, hc]
      refine ⟨fun i hi' => hi.ids_lt i (hp.subset hi'), perm_nodup_of hp hi.ids_nodup,
        hi.calls_lt, fun c hc' hm => hi.calls_dead c hc' (hp.subset hm), hi.calls_nodup⟩
    · rw [hn, hc]
      have hfresh : s.nalloc ∉ ids s.live := fun hm => lt_irrefl _ (hi.ids_lt _ hm)
      refine ⟨?_, ?_, ?_, ?_, hi.calls_nodup⟩
      · intro i hi'
        rcases List.mem_cons.1 (hp.subset hi') with rfl | hm
        · omega
        · have := hi.ids_lt i hm; omega
      · exact perm_nodup_of hp (List.nodup_cons.2 ⟨hfresh, hi.ids_nodup⟩)
      · intro c hc'
        have := hi.calls_lt c hc'; omega
      · intro c hc' hm
        rcases List.mem_cons.1 (hp.subset hm) with heq | hm
        · have := hi.calls_lt c hc'; omega
        · exact hi.calls_dead c hc' hm
    · rw [hn, hc]
      have hnd : (x.curlh :: ids s'.live).Nodup := perm_nodup_of hp hi.ids_nodup
      have hsub : ∀ i ∈ ids s'.live, i ∈ ids s.live :=
        fun i hi' => hp.subset (List.mem_cons_of_mem _ hi')
      have hxl : x.curlh ∈ ids s.live := hp.subset (List.mem_cons_self _ _)
      refine ⟨fun i hi' => hi.ids_lt i (hsub i hi'), (List.nodup_cons.1 hnd).2, ?_, ?_, ?_⟩
      · intro c hc'
        rcases List.mem_append.1 hc' with hc' | hc'
        · exact hi.calls_lt c hc'
        · rw [(http_td_cb_h hc').1]; exact hi.ids_lt _ hxl
      · intro c hc' hm
        rcases List.mem_append.1 hc' with hc' | hc'
        · exact hi.calls_dead c hc' (hsub _ hm)
        · rw [(http_td_cb_h hc').1] at hm
          exact (List.nodup_cons.1 hnd).1 hm
      · rw [List.map_append, List.nodup_append]
        refine ⟨hi.calls_nodup, ?_, ?_⟩
        · unfold http_td_cb
          simp only
          split <;> simp
        · intro j hj1 hj2
          obtain ⟨c1, hc1, rfl⟩ := List.mem_map.1 hj1
          obtain ⟨c2, hc2, heq⟩ := List.mem_map.1 hj2
          apply hi.calls_dead c1 hc1
          rw [← heq, (http_td_cb_h hc2).1]
          exact hxl
  obtain ⟨h1, h2, h3, h4, h5⟩ := hlt
  have hst : (s'.locked = false → s'.postq = []) ∧
      (∀ x ∈ s'.m_httpq, x.state ≠ HS_DONE ∧ (s'.locked = true → x.state = HS_ACTIVE)) ∧
      (∀ x, x ∈ s'.postq ∨ x ∈ s'.tdq →
        (x.state = HS_DONE ∨ x.state = HS_CANCEL) ∧
        (x.res.res = HRES_CANCEL → x.state = HS_CANCEL)) := by
    cases a with
    | get zero cb arg url =>
      obtain ⟨hl, rfl⟩ := step_get_inv h
      refine ⟨hi.postq_nil, ?_, hi.post_state⟩
      intro x hx
      rcases List.mem_append.1 hx with hx | hx
      · exact hi.q_state x hx
      · rw [List.mem_singleton] at hx
        subst hx
        simp [http_get_new, hl]
    | cancel i =>
      obtain ⟨hl, -, rfl⟩ := step_cancel_inv h
      refine ⟨?_, ?_, ?_⟩
      · intro _
        simp [hi.postq_nil hl, cancel_in]
      · intro y hy
        obtain ⟨x, hx, rfl⟩ := mem_cancel_in.1 hy
        have := (hi.q_state x hx).1
        refine ⟨?_, by simp [hl]⟩
        split
        · unfold http_cancel; split <;> simp
        · exact this
      · intro y hy
        have key : ∀ l, (l = s.postq ∨ l = s.tdq) → y ∈ cancel_in i l →
            (y.state = HS_DONE ∨ y.state = HS_CANCEL) ∧
            (y.res.res = HRES_CANCEL → y.state = HS_CANCEL) := by
          intro l hl' hy'
          obtain ⟨x, hx, rfl⟩ := mem_cancel_in.1 hy'
          have hxs := hi.post_state x (by rcases hl' with rfl | rfl; exact Or.inl hx; exact Or.inr hx)
          split
          · have hne : x.state ≠ HS_ADD := by
              rcases hxs.1 with h' | h' <;> rw [h'] <;> decide
            simp [http_cancel, hne]
          · exact hxs
        rcases hy with hy | hy
        · exact key _ (Or.inl rfl) hy
        · exact key _ (Or.inr rfl) hy
    | drain =>
      obtain ⟨hl, -, hst, rfl⟩ := step_drain_inv h
      refine ⟨by simp, ?_, ?_⟩
      · intro y hy
        obtain ⟨x, -, -, rfl⟩ := mem_drain_keep.1 hy
        simp
      · intro y hy
        rcases hy with hy | hy
        · obtain ⟨x, -, -, rfl⟩ := mem_drain_post.1 hy
          simp [http_mark_cancel]
        · exact hi.post_state y (Or.inr hy)
    | poll msgs =>
      obtain ⟨hl, r, hr, rfl⟩ := step_poll_inv h
      obtain ⟨d, hd1, -, hd3, hd4⟩ := http_td_poll_spec _ _ _ _ _ hr
      refine ⟨by simp, ?_, ?_⟩
      · intro y hy
        exact ⟨(hi.q_state y (hd3.subset hy)).1, by simp⟩
      · intro y hy
        simp only [List.not_mem_nil, false_or, hd1, List.mem_append] at hy
        rcases hy with hy | hy | hy
        · exact hi.post_state y (Or.inr hy)
        · exact hi.post_state y (Or.inl hy)
        · obtain ⟨x, -, c, -, rfl⟩ := hd4 y hy
          unfold http_mark_done
          refine ⟨Or.inl rfl, ?_⟩
          simp only
          split <;> simp
    | run_cb i code =>
      obtain ⟨x, hx, rfl⟩ := step_run_cb_inv h
      refine ⟨hi.postq_nil, hi.q_state, ?_⟩
      intro y hy
      rcases hy with hy | hy
      · exact hi.post_state y (Or.inl hy)
      · exact hi.post_state y (Or.inr ((List.eraseP_sublist _).subset hy))
  exact ⟨hst.1, hst.2.1, hst.2.2, h1, h2, h3, h4, h5⟩

theorem Inv_run {acts : List http_action} {s s' : http_sys} (hi : Inv s)
    (h : http_run acts s = some s') : Inv s' := by
  induction acts generalizing s with
  | nil =>
    simp only [http_run] at h
    cases h
    exact hi
  | cons a as ih =>
    simp only [http_run] at h
    cases hs : http_step a s with
    | none => rw [hs] at h; cases h
    | some s1 =>
      rw [hs] at h
      exact ih (Inv_step hi hs) h

/-! ## The drain pass -/

/-- C9: one drain pass over a queue of distinct requests, none of them
`HS_DONE`, returns: as the queue, the requests that were `HS_ADD` or
`HS_ACTIVE`, in their order, all `HS_ACTIVE`; as the batch, the requests that
were `HS_NOADD` or `HS_CANCEL`, in their order, each `HS_CANCEL` with outcome
`HRES_CANCEL`.  The handles of the `HS_ADD` requests are registered
afterwards, those of the `HS_CANCEL` requests are not, the other registrations
are as before; no request is in both lists and none is lost or duplicated. -/
theorem http_td_drain_split (q : List http) (m : List Nat)
    (hst : ∀ h ∈ q, h.state ≠ HS_DONE)
    (hnd : (q.map (fun h => h.curlh)).Nodup) :
    ∃ q' p' m',
      http_td_drain q m = some (q', p', m') ∧
      q' = (q.filter (fun h => h.state = HS_ADD ∨ h.state = HS_ACTIVE)).map
        (fun h => { h with state := HS_ACTIVE }) ∧
      p' = (q.filter (fun h => h.state = HS_NOADD ∨ h.state = HS_CANCEL)).map
        (fun h => { h with state := HS_CANCEL, res := { h.res with res := HRES_CANCEL } }) ∧
      (∀ h ∈ q, h.state = HS_ADD → h.curlh ∈ m') ∧
      (∀ h ∈ q, h.state = HS_CANCEL → h.curlh ∉ m') ∧
      (∀ h ∈ q, h.state = HS_ACTIVE ∨ h.state = HS_NOADD → (h.curlh ∈ m' ↔ h.curlh ∈ m)) ∧
      (∀ x ∈ q', ∀ y ∈ p', x.curlh ≠ y.curlh) ∧
      ((q' ++ p').map (fun h => h.curlh)).Perm (q.map (fun h => h.curlh)) := by
  have hperm := drain_perm q hst
  have hsame : ∀ {x y : http}, x ∈ q → y ∈ q → x.curlh = y.curlh → x = y :=
    fun hx hy h => eq_of_curlh_eq hnd hx hy h
  refine ⟨drain_keep q, drain_post q, drain_handles q m, http_td_drain_eq q m hst, rfl, rfl,
    ?_, ?_, ?_, ?_, hperm⟩
  · intro h hh hs
    exact (mem_drain_handles q m hnd _).2 (Or.inl ⟨h, hh, hs, rfl⟩)
  · intro h hh hs hm
    rcases (mem_drain_handles q m hnd _).1 hm with ⟨x, hx, hxs, hxe⟩ | ⟨-, hno⟩
    · rw [hsame hx hh hxe, hs] at hxs
      cases hxs
    · exact hno ⟨h, hh, hs, rfl⟩
  · intro h hh hs
    rw [mem_drain_handles q m hnd]
    constructor
    · rintro (⟨x, hx, hxs, hxe⟩ | ⟨hm, -⟩)
      · rw [hsame hx hh hxe] at hxs
        rcases hs with hs | hs <;> rw [hs] at hxs <;> cases hxs
      · exact hm
    · intro hm
      refine Or.inr ⟨hm, ?_⟩
      rintro ⟨x, hx, hxs, hxe⟩
      rw [hsame hx hh hxe] at hxs
      rcases hs with hs | hs <;> rw [hs] at hxs <;> cases hxs
  · intro x hx y hy hxy
    obtain ⟨x0, hx0, hxs, rfl⟩ := mem_drain_keep.1 hx
    obtain ⟨y0, hy0, hys, rfl⟩ := mem_drain_post.1 hy
    have : x0 = y0 := hsame hx0 hy0 hxy
    subst this
    rcases hxs with h1 | h1 <;> rcases hys with h2 | h2 <;> rw [h1] at h2 <;> cases h2

/-- Witness of C9: a queue with one request in each of the four states. -/
theorem http_td_drain_split_witness :
    ∃ q' p' m',
      http_td_drain
        [{ state := HS_ADD, url := [], curlh := 0, res := http_res_zero HRES_OK,
           cb := 1, cb_arg := 2 },
         { state := HS_CANCEL, url := [], curlh := 1, res := http_res_zero HRES_OK,
           cb := 1, cb_arg := 2 },
         { state := HS_NOADD, url := [], curlh := 2, res := http_res_zero HRES_OK,
           cb := 1, cb_arg := 2 },
         { state := HS_ACTIVE, url := [], curlh := 3, res := http_res_zero HRES_OK,
           cb := 1, cb_arg := 2 }] [1, 3] = some (q', p', m') ∧
      q'.map (fun h => (h.curlh, h.state)) = [(0, HS_ACTIVE), (3, HS_ACTIVE)] ∧
      p'.map (fun h => (h.curlh, h.state, h.res.res))
        = [(1, HS_CANCEL, HRES_CANCEL), (2, HS_CANCEL, HRES_CANCEL)] := by
  obtain ⟨q', p', m', h, hq, hp, -⟩ := http_td_drain_split
    [{ state := HS_ADD, url := [], curlh := 0, res := http_res_zero HRES_OK,
       cb := 1, cb_arg := 2 },
     { state := HS_CANCEL, url := [], curlh := 1, res := http_res_zero HRES_OK,
       cb := 1, cb_arg := 2 },
     { state := HS_NOADD, url := [], curlh := 2, res := http_res_zero HRES_OK,
       cb := 1, cb_arg := 2 },
     { state := HS_ACTIVE, url := [], curlh := 3, res := http_res_zero HRES_OK,
       cb := 1, cb_arg := 2 }] [1, 3] (by decide) (by decide)
  refine ⟨q', p', m', h, ?_, ?_⟩
  · rw [hq]; decide
  · rw [hp]; decide

/-! ## Runs of the subsystem -/

theorem http_run_append (as bs : List http_action) (s : http_sys) :
    http_run (as ++ bs) s = (http_run as s).bind (http_run bs) := by
  induction as generalizing s with
  | nil => rfl
  | cons a as ih =>
    simp only [List.cons_append, http_run]
    cases http_step a s with
    | none => rfl
    | some s1 => simpa using ih s1

/-- A drain step followed by a poll step is one pass of `http_td_actions`. -/
theorem http_run_drain_poll (msgs : List CURLMsg) (s : http_sys)
    (hl : s.locked = false) (hne : s.m_httpq ≠ []) :
    http_run [.drain, .poll msgs] s =
      (http_td_actions msgs s.m_httpq s.m_curlh).map
        (fun r =>
          { s with
            m_httpq := r.1, postq := [], m_curlh := r.2.2, locked := false
            tdq := s.tdq ++ r.2.1 }) := by
  simp only [http_run, http_step, http_td_actions, hl, hne, Bool.false_eq_true, or_self,
    if_false]
  cases http_td_drain s.m_httpq s.m_curlh with
  | none => rfl
  | some r =>
    simp only [Option.map_some', Option.some_bind, if_true]
    cases http_td_poll msgs r.1 r.2.1 r.2.2 with
    | none => rfl
    | some r2 => rfl

theorem Inv_of_run {acts : List http_action} {s : http_sys}
    (h : http_run acts http_init = some s) : Inv s :=
  Inv_run Inv_init h

/-- C10: in every state a run from the initial state ends in, no request of
the shared queue is `HS_DONE`, so the drain loop does not reach `abort()`: it
returns, and the drain step is taken whenever the mutex is free and the queue
is not empty. -/
theorem drain_abort_unreachable (acts : List http_action) (s : http_sys)
    (hr : http_run acts http_init = some s) :
    (∀ h ∈ s.m_httpq, h.state ≠ HS_DONE) ∧
    (http_td_drain s.m_httpq s.m_curlh).isSome = true ∧
    (s.locked = false → s.m_httpq ≠ [] → (http_step .drain s).isSome = true) := by
  have hi := Inv_of_run hr
  have hst : ∀ h ∈ s.m_httpq, h.state ≠ HS_DONE := fun h hh => (hi.q_state h hh).1
  have hd := http_td_drain_eq s.m_httpq s.m_curlh hst
  refine ⟨hst, by rw [hd]; rfl, ?_⟩
  intro hl hne
  simp [http_step, hl, hne, hd]

/-- Witness of C10: one request completed and handed over, a second one
cancelled while active, a third one just submitted. -/
theorem drain_abort_unreachable_witness :
    (http_td_drain
      [{ state := HS_CANCEL, url := [], curlh := 1, res := http_res_zero HRES_OK,
         cb := 1, cb_arg := 2 },
       { state := HS_ADD, url := [], curlh := 2, res := http_res_zero HRES_OK,
         cb := 1, cb_arg := 2 }] [1]).isSome = true :=
  (drain_abort_unreachable
    [.get HRES_OK 1 2 [], .get HRES_OK 1 2 [], .drain, .poll [⟨0, 0⟩], .cancel 1,
      .get HRES_OK 1 2 []]
    { m_httpq :=
        [{ state := HS_CANCEL, url := [], curlh := 1, res := http_res_zero HRES_OK,
           cb := 1, cb_arg := 2 },
         { state := HS_ADD, url := [], curlh := 2, res := http_res_zero HRES_OK,
           cb := 1, cb_arg := 2 }]
      m_curlh := [1]
      postq := []
      locked := false
      tdq := [{ state := HS_DONE, url := [], curlh := 0, res := http_res_zero HRES_OK,
                cb := 1, cb_arg := 2 }]
      calls := []
      nalloc := 3 }
    (by decide)).2.1

/-! ## The dispatcher task -/

theorem Cancelled_step {i : Nat} {a : http_action} {s s' : http_sys}
    (hc : Cancelled i s) (h : http_step a s = some s') : Cancelled i s' := by
  have hi := hc.inv
  have hi' := Inv_step hi h
  cases a with
  | get zero cb arg url =>
    obtain ⟨hl, rfl⟩ := step_get_inv h
    refine ⟨hi', ?_, Nat.lt_succ_of_lt hc.lt, hc.calls⟩
    intro y hy hyi
    rcases mem_live.1 hy with hy | hy | hy
    · rcases List.mem_append.1 hy with hy | hy
      · exact hc.state y (mem_live.2 (Or.inl hy)) hyi
      · rw [List.mem_singleton] at hy
        subst hy
        have := hc.lt
        simp only [http_get_new] at hyi
        omega
    · exact hc.state y (mem_live.2 (Or.inr (Or.inl hy))) hyi
    · exact hc.state y (mem_live.2 (Or.inr (Or.inr hy))) hyi
  | cancel j =>
    obtain ⟨hl, -, rfl⟩ := step_cancel_inv h
    refine ⟨hi', ?_, hc.lt, hc.calls⟩
    intro y hy hyi
    have key : ∀ l, (∀ x ∈ l, x ∈ s.live) → y ∈ cancel_in j l →
        y.state = HS_NOADD ∨ y.state = HS_CANCEL := by
      intro l hl' hy'
      obtain ⟨x, hx, rfl⟩ := mem_cancel_in.1 hy'
      split at hyi
      · rw [http_cancel_curlh] at hyi
        rw [if_pos (by assumption)]
        unfold http_cancel
        split <;> simp
      · rw [if_neg (by assumption)]
        exact hc.state x (hl' x hx) hyi
    rcases mem_live.1 hy with hy | hy | hy
    · exact key _ (fun x hx => mem_live.2 (Or.inl hx)) hy
    · exact key _ (fun x hx => mem_live.2 (Or.inr (Or.inl hx))) hy
    · exact key _ (fun x hx => mem_live.2 (Or.inr (Or.inr hx))) hy
  | drain =>
    obtain ⟨hl, -, hst, rfl⟩ := step_drain_inv h
    refine ⟨hi', ?_, hc.lt, hc.calls⟩
    intro y hy hyi
    rcases mem_live.1 hy with hy | hy | hy
    · obtain ⟨x, hx, hxs, rfl⟩ := mem_drain_keep.1 hy
      have := hc.state x (mem_live.2 (Or.inl hx)) hyi
      rcases hxs with h1 | h1 <;> rcases this with h2 | h2 <;> rw [h1] at h2 <;> cases h2
    · obtain ⟨x, hx, hxs, rfl⟩ := mem_drain_post.1 hy
      exact Or.inr rfl
    · exact hc.state y (mem_live.2 (Or.inr (Or.inr hy))) hyi
  | poll msgs =>
    obtain ⟨hl, r, hr, rfl⟩ := step_poll_inv h
    obtain ⟨d, hd1, -, hd3, hd4⟩ := http_td_poll_spec _ _ _ _ _ hr
    refine ⟨hi', ?_, hc.lt, hc.calls⟩
    intro y hy hyi
    rcases mem_live.1 hy with hy | hy | hy
    · exact hc.state y (mem_live.2 (Or.inl (hd3.subset hy))) hyi
    · simp at hy
    · simp only [hd1, List.mem_append] at hy
      rcases hy with hy | hy | hy
      · exact hc.state y (mem_live.2 (Or.inr (Or.inr hy))) hyi
      · exact hc.state y (mem_live.2 (Or.inr (Or.inl hy))) hyi
      · obtain ⟨x, hx, c, -, rfl⟩ := hd4 y hy
        have h1 := (hi.q_state x hx).2 hl
        have h2 := hc.state x (mem_live.2 (Or.inl hx)) hyi
        rcases h2 with h2 | h2 <;> rw [h1] at h2 <;> cases h2
  | run_cb j code =>
    obtain ⟨x, hx, rfl⟩ := step_run_cb_inv h
    obtain ⟨-, hxm, -⟩ := find_eraseP_perm _ _ _ hx
    refine ⟨hi', ?_, hc.lt, ?_⟩
    · intro y hy hyi
      rcases mem_live.1 hy with hy | hy | hy
      · exact hc.state y (mem_live.2 (Or.inl hy)) hyi
      · exact hc.state y (mem_live.2 (Or.inr (Or.inl hy))) hyi
      · exact hc.state y (mem_live.2 (Or.inr (Or.inr ((List.eraseP_sublist _).subset hy)))) hyi
    · intro c hcm hci
      rcases List.mem_append.1 hcm with hcm | hcm
      · exact hc.calls c hcm hci
      · obtain ⟨h1, h2⟩ := http_td_cb_h hcm
        have h3 := hc.state x (mem_live.2 (Or.inr (Or.inr hxm))) (h1.symm.trans hci)
        have h4 := (hi.post_state x (Or.inr hxm)).1
        rcases h3 with h3 | h3
        · rcases h4 with h4 | h4 <;> rw [h3] at h4 <;> cases h4
        · exact h2 h3

theorem Cancelled_run {i : Nat} {acts : List http_action} {s s' : http_sys}
    (hc : Cancelled i s) (h : http_run acts s = some s') : Cancelled i s' := by
  induction acts generalizing s with
  | nil =>
    simp only [http_run] at h
    cases h
    exact hc
  | cons a as ih =>
    simp only [http_run] at h
    cases hs : http_step a s with
    | none => rw [hs] at h; cases h
    | some s1 =>
      rw [hs] at h
      exact ih (Cancelled_step hc hs) h

theorem Cancelled_of_cancel {i : Nat} {s s' : http_sys} (hi : Inv s)
    (h : http_step (.cancel i) s = some s') : Cancelled i s' := by
  have hi' := Inv_step hi h
  obtain ⟨hl, ⟨x0, hx0, hx0i⟩, rfl⟩ := step_cancel_inv h
  have hlive : i ∈ ids s.live := mem_ids.2 ⟨x0, hx0, hx0i⟩
  refine ⟨hi', ?_, hi.ids_lt i hlive, ?_⟩
  · intro y hy hyi
    have key : ∀ l, y ∈ cancel_in i l → y.state = HS_NOADD ∨ y.state = HS_CANCEL := by
      intro l hy'
      obtain ⟨x, hx, rfl⟩ := mem_cancel_in.1 hy'
      split at hyi
      · rw [if_pos (by assumption)]
        unfold http_cancel
        split <;> simp
      · exact absurd hyi (by assumption)
    rcases mem_live.1 hy with hy | hy | hy
    · exact key _ hy
    · exact key _ hy
    · exact key _ hy
  · intro c hc hci
    apply hi.calls_dead c hc
    rw [hci]
    exact hlive

/-- C5: in every run from the initial state in which `http_cancel` is applied
to a request, whatever its state then (`HS_ADD`, `HS_ACTIVE`, `HS_DONE` after
completion, or already cancelled) and whatever steps come before and after,
no invocation of the callback of that request is ever made: not before the
cancel, and not by the `http_td_cb` task that runs after it. -/
theorem no_callback_after_cancel (before after : List http_action) (i : Nat)
    (s : http_sys)
    (hr : http_run (before ++ http_action.cancel i :: after) http_init = some s) :
    ∀ c ∈ s.calls, c.h ≠ i := by
  rw [http_run_append] at hr
  cases h0 : http_run before http_init with
  | none => rw [h0] at hr; cases hr
  | some s0 =>
    rw [h0] at hr
    simp only [Option.some_bind, http_run] at hr
    cases h1 : http_step (.cancel i) s0 with
    | none => rw [h1] at hr; cases hr
    | some s1 =>
      rw [h1] at hr
      simp only [Option.some_bind] at hr
      exact (Cancelled_run (Cancelled_of_cancel (Inv_of_run h0) h1) hr).calls

/-- Witness of C5: a request cancelled after its transfer completed, then
dispatched. -/
theorem no_callback_after_cancel_witness :
    http_run ([.get HRES_OK 7 8 [], .drain, .poll [⟨0, 0⟩]] ++
        http_action.cancel 0 :: [.run_cb 0 200]) http_init
      = some { m_httpq := [], m_curlh := [], postq := [], locked := false, tdq := [],
               calls := [], nalloc := 1 } ∧
    ∀ c ∈ ({ m_httpq := [], m_curlh := [], postq := [], locked := false, tdq := [],
             calls := [], nalloc := 1 } : http_sys).calls, c.h ≠ 0 :=
  ⟨by decide,
    no_callback_after_cancel [.get HRES_OK 7 8 [], .drain, .poll [⟨0, 0⟩]] [.run_cb 0 200] 0
      { m_httpq := [], m_curlh := [], postq := [], locked := false, tdq := [], calls := [],
        nalloc := 1 }
      (by decide)⟩

/-! ## State transitions -/

/-- C8, as stated, fails: the drain pass takes a request from `HS_NOADD` to
`HS_CANCEL`, and `http_cancel` takes a completed request from `HS_DONE` to
`HS_CANCEL`; neither is one of the edges the claim lists. -/
theorem state_change_off_the_edges :
    ((http_run [.get HRES_OK 7 8 [], .cancel 0] http_init).map
        (fun s => s.live.map (fun h => (h.curlh, h.state))) = some [(0, HS_NOADD)] ∧
      (http_run [.get HRES_OK 7 8 [], .cancel 0, .drain] http_init).map
        (fun s => s.live.map (fun h => (h.curlh, h.state))) = some [(0, HS_CANCEL)] ∧
      (HS_NOADD, HS_CANCEL) ∉
        [(HS_ADD, HS_ACTIVE), (HS_ACTIVE, HS_DONE), (HS_ADD, HS_NOADD), (HS_ACTIVE, HS_CANCEL)]) ∧
    ((http_run [.get HRES_OK 7 8 [], .drain, .poll [⟨0, 0⟩]] http_init).map
        (fun s => s.live.map (fun h => (h.curlh, h.state))) = some [(0, HS_DONE)] ∧
      (http_run [.get HRES_OK 7 8 [], .drain, .poll [⟨0, 0⟩], .cancel 0] http_init).map
        (fun s => s.live.map (fun h => (h.curlh, h.state))) = some [(0, HS_CANCEL)] ∧
      (HS_DONE, HS_CANCEL) ∉
        [(HS_ADD, HS_ACTIVE), (HS_ACTIVE, HS_DONE), (HS_ADD, HS_NOADD), (HS_ACTIVE, HS_CANCEL)]) := by
  decide

theorem eq_of_live_curlh_eq {s : http_sys} (hi : Inv s) {x y : http}
    (hx : x ∈ s.live) (hy : y ∈ s.live) (h : x.curlh = y.curlh) : x = y :=
  eq_of_curlh_eq hi.ids_nodup hx hy h

/-- C8, amended: in every run of `http_get`, `http_cancel`, drain,
completion-poll and dispatch steps, a step leaves the state of a request as it
is or changes it along one of the edges `HS_ADD -> HS_ACTIVE`,
`HS_ACTIVE -> HS_DONE`, `HS_ADD -> HS_NOADD`, `HS_ACTIVE -> HS_CANCEL`,
`HS_NOADD -> HS_CANCEL`, `HS_DONE -> HS_CANCEL`. -/
theorem state_edges (acts : List http_action) (a : http_action) (s s' : http_sys)
    (x y : http)
    (hr : http_run acts http_init = some s) (hs : http_step a s = some s')
    (hx : x ∈ s.live) (hy : y ∈ s'.live) (hxy : x.curlh = y.curlh) :
    y.state = x.state ∨
    (x.state = HS_ADD ∧ y.state = HS_ACTIVE) ∨
    (x.state = HS_ACTIVE ∧ y.state = HS_DONE) ∨
    (x.state = HS_ADD ∧ y.state = HS_NOADD) ∨
    (x.state = HS_ACTIVE ∧ y.state = HS_CANCEL) ∨
    (x.state = HS_NOADD ∧ y.state = HS_CANCEL) ∨
    (x.state = HS_DONE ∧ y.state = HS_CANCEL) := by
  have hi := Inv_of_run hr
  have same : ∀ {x0 : http}, x0 ∈ s.live → x0.curlh = y.curlh → x0 = x :=
    fun h0 he => eq_of_live_curlh_eq hi h0 hx (he.trans hxy.symm)
  cases a with
  | get zero cb arg url =>
    obtain ⟨hl, rfl⟩ := step_get_inv hs
    left
    rcases mem_live.1 hy with hy | hy | hy
    · rcases List.mem_append.1 hy with hy | hy
      · rw [same (mem_live.2 (Or.inl hy)) rfl]
      · rw [List.mem_singleton] at hy
        subst hy
        have := hi.ids_lt _ (mem_ids_of_mem hx)
        simp only [http_get_new] at hxy
        omega
    · rw [same (mem_live.2 (Or.inr (Or.inl hy))) rfl]
    · rw [same (mem_live.2 (Or.inr (Or.inr hy))) rfl]
  | cancel i =>
    obtain ⟨hl, -, rfl⟩ := step_cancel_inv hs
    have key : ∀ l, (∀ z ∈ l, z ∈ s.live) → y ∈ cancel_in i l →
        y = x ∨ y = http_cancel x := by
      intro l hl' hy'
      obtain ⟨x0, hx0, rfl⟩ := mem_cancel_in.1 hy'
      split
      · rename_i hc
        rw [if_pos hc, http_cancel_curlh] at hxy
        rw [eq_of_live_curlh_eq hi (hl' x0 hx0) hx hxy.symm]
        exact Or.inr rfl
      · rename_i hc
        rw [if_neg hc] at hxy
        rw [eq_of_live_curlh_eq hi (hl' x0 hx0) hx hxy.symm]
        exact Or.inl rfl
    have hyx : y = x ∨ y = http_cancel x := by
      rcases mem_live.1 hy with hy | hy | hy
      · exact key _ (fun z hz => mem_live.2 (Or.inl hz)) hy
      · exact key _ (fun z hz => mem_live.2 (Or.inr (Or.inl hz))) hy
      · exact key _ (fun z hz => mem_live.2 (Or.inr (Or.inr hz))) hy
    rcases hyx with rfl | rfl
    · exact Or.inl rfl
    · obtain ⟨st, url, curlh, res, cb, arg⟩ := x
      cases st <;> simp [http_cancel]
  | drain =>
    obtain ⟨hl, -, hst, rfl⟩ := step_drain_inv hs
    rcases mem_live.1 hy with hy | hy | hy
    · obtain ⟨x0, hx0, hxs, rfl⟩ := mem_drain_keep.1 hy
      have := same (mem_live.2 (Or.inl hx0)) rfl
      subst this
      rcases hxs with h1 | h1 <;> simp [h1]
    · obtain ⟨x0, hx0, hxs, rfl⟩ := mem_drain_post.1 hy
      have := same (mem_live.2 (Or.inl hx0)) rfl
      subst this
      rcases hxs with h1 | h1 <;> simp [h1, http_mark_cancel]
    · rw [same (mem_live.2 (Or.inr (Or.inr hy))) rfl]
      exact Or.inl rfl
  | poll msgs =>
    obtain ⟨hl, r, hr', rfl⟩ := step_poll_inv hs
    obtain ⟨d, hd1, -, hd3, hd4⟩ := http_td_poll_spec _ _ _ _ _ hr'
    rcases mem_live.1 hy with hy | hy | hy
    · rw [same (mem_live.2 (Or.inl (hd3.subset hy))) rfl]
      exact Or.inl rfl
    · simp at hy
    · simp only [hd1, List.mem_append] at hy
      rcases hy with hy | hy | hy
      · rw [same (mem_live.2 (Or.inr (Or.inr hy))) rfl]
        exact Or.inl rfl
      · rw [same (mem_live.2 (Or.inr (Or.inl hy))) rfl]
        exact Or.inl rfl
      · obtain ⟨x0, hx0, c, -, rfl⟩ := hd4 y hy
        have := same (mem_live.2 (Or.inl hx0)) rfl
        subst this
        have h1 := (hi.q_state x0 hx0).2 hl
        simp [h1, http_mark_done]
  | run_cb i code =>
    obtain ⟨x0, hx0, rfl⟩ := step_run_cb_inv hs
    left
    rcases mem_live.1 hy with hy | hy | hy
    · rw [same (mem_live.2 (Or.inl hy)) rfl]
    · rw [same (mem_live.2 (Or.inr (Or.inl hy))) rfl]
    · rw [same (mem_live.2 (Or.inr (Or.inr ((List.eraseP_sublist _).subset hy)))) rfl]

/-- Witness of the amended C8: the drain pass activates a submitted request. -/
theorem state_edges_witness :
    (HS_ACTIVE = HS_ADD) ∨
    (HS_ADD = HS_ADD ∧ HS_ACTIVE = HS_ACTIVE) ∨
    (HS_ADD = HS_ACTIVE ∧ HS_ACTIVE = HS_DONE) ∨
    (HS_ADD = HS_ADD ∧ HS_ACTIVE = HS_NOADD) ∨
    (HS_ADD = HS_ACTIVE ∧ HS_ACTIVE = HS_CANCEL) ∨
    (HS_ADD = HS_NOADD ∧ HS_ACTIVE = HS_CANCEL) ∨
    (HS_ADD = HS_DONE ∧ HS_ACTIVE = HS_CANCEL) :=
  state_edges [.get HRES_OK 7 8 []] .drain
    { m_httpq := [http_get_new HRES_OK 0 7 8 []], m_curlh := [], postq := [],
      locked := false, tdq := [], calls := [], nalloc := 1 }
    { m_httpq := [{ http_get_new HRES_OK 0 7 8 [] with state := HS_ACTIVE }],
      m_curlh := [0], postq := [], locked := true, tdq := [], calls := [], nalloc := 1 }
    (http_get_new HRES_OK 0 7 8 [])
    { http_get_new HRES_OK 0 7 8 [] with state := HS_ACTIVE }
    (by decide) (by decide) (by decide) (by decide) (by decide)

end Btpd
